import Mathlib

/-!
Shallow embedding of `src/public/script.js` (browser chat widget).
The formatter `formatGeminiResponse` is modelled character-by-character on
`List Char`; the submit handler is modelled as a pure function from the
input-field value and the network outcome to the handler's visible effects.
-/

namespace ChatWidget

/-- Character list of a string literal (strings are processed char-wise,
mirroring the JS regex replacements). -/
def str (s : String) : List Char := s.data

/-- JS regex line terminators: `\n`, `\r`, U+2028 (LS), U+2029 (PS).  The
multiline anchors `^`/`$` of `/^\* (.*$)/gm` break lines at each of these,
and `.` (without the `s` flag) matches none of them. -/
def isLineTerm (c : Char) : Bool :=
  c = '\n' ∨ c = '\r' ∨ c = '\u2028' ∨ c = '\u2029'

theorem lineTerm_cases {c : Char} (h : isLineTerm c = true) :
    c = '\n' ∨ c = '\r' ∨ c = '\u2028' ∨ c = '\u2029' := by
  simpa [isLineTerm] using h

theorem lineTerm_not_angle {c : Char} (h : isLineTerm c = true) :
    c ≠ '<' ∧ c ≠ '>' := by
  rcases lineTerm_cases h with rfl | rfl | rfl | rfl <;> exact ⟨by decide, by decide⟩

theorem no_nl_of_no_term {cs : List Char} (h : ∀ c ∈ cs, isLineTerm c = false) :
    '\n' ∉ cs := by
  intro hm
  have := h _ hm
  simp [isLineTerm] at this

/-- One character of step 1, `text.replace(/</g, '&lt;').replace(/>/g, '&gt;')`:
`<` and `>` become their HTML entities, all other characters pass through.
Applying the two JS replaces in sequence equals this single char map because
the first replace introduces no `>` and the second no `<`. -/
def escChar (c : Char) : List Char :=
  if c = '<' then str "&lt;" else if c = '>' then str "&gt;" else [c]

/-- Step 1 of `formatGeminiResponse` (line 14): escape `<` and `>`. -/
def escape (cs : List Char) : List Char := (cs.map escChar).flatten

/-- Search for the closing `**` of a bold span, as the non-greedy `(.*?)`
of `/\*\*(.*?)\*\*/g` does: scan left to right, stop at the first `**`;
`.` does not match a line terminator, so one aborts the search.
Returns `(content, remainder after the closing stars)`. -/
def findClose : List Char → Option (List Char × List Char)
  | [] => none
  | c :: rest =>
    if c = '*' ∧ rest.head? = some '*' then some ([], rest.tail)
    else if isLineTerm c then none
    else (findClose rest).map fun pr => (c :: pr.1, pr.2)

theorem findClose_len {l : List Char} {pr : List Char × List Char}
    (h : findClose l = some pr) : pr.2.length < l.length := by
  induction l generalizing pr with
  | nil => simp [findClose] at h
  | cons c rest ih =>
    rw [findClose] at h
    split at h
    · rename_i hc
      cases h
      have : rest.tail.length ≤ rest.length := by
        cases rest <;> simp
      simpa using Nat.lt_of_le_of_lt this (Nat.lt_succ_self _)
    · split at h
      · simp at h
      · rcases Option.map_eq_some'.mp h with ⟨q, hq, hpr⟩
        have hlt := @ih q hq
        rw [← hpr]
        exact Nat.lt_trans hlt (Nat.lt_succ_self _)

/-- Step 2 (line 17): `html.replace(/\*\*(.*?)\*\*/g, '<strong>$1</strong>')`.
At each position, a `**` with a closing `**` on the same line becomes a
`<strong>` element around the (shortest) enclosed content; a `**` with no
closing pair is left literal, the scan moving on by one character. -/
def bold : List Char → List Char
  | [] => []
  | c :: rest =>
    if c = '*' ∧ rest.head? = some '*' then
      match h : findClose rest.tail with
      | some pr => str "<strong>" ++ pr.1 ++ str "</strong>" ++ bold pr.2
      | none => c :: bold rest
    else c :: bold rest
termination_by cs => cs.length
decreasing_by
  · have h1 := findClose_len h
    have h2 : rest.tail.length ≤ rest.length := by cases rest <;> simp
    simp only [List.length_cons]
    omega
  · simp
  · simp

/-- Split off the first line: characters before the first line terminator,
and (when one exists) that terminator together with the remainder after
it.  Every JS line terminator (`\n`, `\r`, LS, PS) ends a line for the
`m`-flag anchors. -/
def splitNl : List Char → List Char × Option (Char × List Char)
  | [] => ([], none)
  | c :: rest =>
    if isLineTerm c then ([], some (c, rest))
    else ((splitNl rest).1.cons c, (splitNl rest).2)

theorem splitNl_rest_len {cs : List Char} {pr : Char × List Char}
    (h : (splitNl cs).2 = some pr) : pr.2.length < cs.length := by
  induction cs generalizing pr with
  | nil => simp [splitNl] at h
  | cons c rest ih =>
    rw [splitNl] at h
    split at h
    · simp at h
      rw [← h]
      simp
    · simp at h
      exact Nat.lt_trans (ih h) (Nat.lt_succ_self _)

theorem splitNl_term {cs : List Char} {pr : Char × List Char}
    (h : (splitNl cs).2 = some pr) : isLineTerm pr.1 = true := by
  induction cs generalizing pr with
  | nil => simp [splitNl] at h
  | cons c rest ih =>
    rw [splitNl] at h
    split at h
    · rename_i hc
      simp at h
      rw [← h]
      exact hc
    · simp at h
      exact ih h

/-- Step 3 (line 21) applied to one line: `/^\* (.*$)/gm` turns a line
starting with `"* "` into `<li>…</li>` around the rest of the line (the
`(.*$)` capture runs to the line's terminator). -/
def liLine (l : List Char) : List Char :=
  if l.take 2 = str "* " then str "<li>" ++ l.drop 2 ++ str "</li>" else l

/-- Step 3 (line 21) on the whole text: every line beginning with `"* "`
becomes a list item; the `m` flag makes `^`/`$` work per line, with lines
delimited by any JS line terminator, which is kept in place. -/
def listify (cs : List Char) : List Char :=
  match h : (splitNl cs).2 with
  | none => liLine (splitNl cs).1
  | some pr => liLine (splitNl cs).1 ++ pr.1 :: listify pr.2
termination_by cs.length
decreasing_by
  exact splitNl_rest_len h

/-- Leftmost occurrence of `pat`: `some (before, after)` splits the list as
`before ++ pat ++ after` at the first occurrence of `pat`. -/
def splitFirst (pat : List Char) : List Char → Option (List Char × List Char)
  | [] => none
  | c :: rest =>
    if pat.isPrefixOf (c :: rest) then some ([], (c :: rest).drop pat.length)
    else (splitFirst pat rest).map fun pr => (c :: pr.1, pr.2)

/-- Rightmost occurrence of `pat`: `some (before, after)` splits the list as
`before ++ pat ++ after` at the last occurrence of `pat`. -/
def splitLast (pat : List Char) : List Char → Option (List Char × List Char)
  | [] => none
  | c :: rest =>
    match splitLast pat rest with
    | some pr => some (c :: pr.1, pr.2)
    | none =>
      if pat.isPrefixOf (c :: rest) then some ([], (c :: rest).drop pat.length)
      else none

/-- Step 4 (line 25): `html.replace(/(<li>.*<\/li>)/gs, '<ul>$1</ul>')`.
With the `s` flag the greedy `.*` runs from the first `<li>` to the last
`</li>` of the whole string, so at most one `<ul>…</ul>` is inserted,
spanning that whole region (including any intervening non-list text). -/
def wrapUl (cs : List Char) : List Char :=
  match splitFirst (str "<li>") cs with
  | none => cs
  | some pr =>
    match splitLast (str "</li>") pr.2 with
    | none => cs
    | some qr => pr.1 ++ str "<ul><li>" ++ qr.1 ++ str "</li></ul>" ++ qr.2

/-- One character of step 5 (line 28): `'\n'` becomes `<br>`. -/
def brChar (c : Char) : List Char := if c = '\n' then str "<br>" else [c]

/-- Step 5 (line 28): `html.replace(/\n/g, '<br>')`. -/
def nlToBr (cs : List Char) : List Char := (cs.map brChar).flatten

/-- Step 6a (line 31): `html.replace(/<br><ul>/g, '<ul>')` — drop a `<br>`
immediately preceding a `<ul>`, scanning left to right without rescanning
replaced output. -/
def fixBefore : List Char → List Char
  | [] => []
  | c :: rest =>
    if (str "<br><ul>").isPrefixOf (c :: rest) then str "<ul>" ++ fixBefore (rest.drop 7)
    else c :: fixBefore rest
termination_by cs => cs.length
decreasing_by
  · simp only [List.length_cons]
    have : (rest.drop 7).length ≤ rest.length := by simp
    omega
  · simp

/-- Step 6b (line 32): `html.replace(/<\/ul><br>/g, '</ul>')` — drop a `<br>`
immediately following `</ul>`. -/
def fixAfter : List Char → List Char
  | [] => []
  | c :: rest =>
    if (str "</ul><br>").isPrefixOf (c :: rest) then str "</ul>" ++ fixAfter (rest.drop 8)
    else c :: fixAfter rest
termination_by cs => cs.length
decreasing_by
  · simp only [List.length_cons]
    have : (rest.drop 8).length ≤ rest.length := by simp
    omega
  · simp

/-- The whole pipeline of `formatGeminiResponse` (lines 11–35) on characters. -/
def formatChars (cs : List Char) : List Char :=
  fixAfter (fixBefore (nlToBr (wrapUl (listify (bold (escape cs))))))

/-- `formatGeminiResponse` (lines 11–35): escape angle brackets, bold,
list items, list wrapping, newlines to `<br>`, and `<br>` cleanup
around lists, in that order. -/
def formatGeminiResponse (t : String) : String :=
  (formatChars t.data).asString

/-- Number of occurrences (all start positions) of `pat` as a contiguous
sublist. -/
def countSub (pat : List Char) : List Char → Nat
  | [] => 0
  | c :: rest => (if pat.isPrefixOf (c :: rest) then 1 else 0) + countSub pat rest

/-! ## The submit handler (lines 54–107)

The `'submit'` listener is modelled as a pure function from the input-field
value and the network outcome to the handler's visible effects.  JSON bodies
are modelled by the two fields the handler reads (`error` and `result`,
string-valued), plus `null` and an unparseable body. -/

/-- The JS whitespace set of `String.prototype.trim`: WhiteSpace (TAB, VT,
FF, SP, NBSP, ZWNBSP and the Unicode space separators Zs) together with
the LineTerminator set (LF, CR, LS, PS). -/
def isJsWs (c : Char) : Bool :=
  c = '\t' ∨ c = '\n' ∨ c = '\x0b' ∨ c = '\x0c' ∨ c = '\r' ∨ c = ' ' ∨
  c = '\u00A0' ∨ c = '\u1680' ∨ ('\u2000' ≤ c ∧ c ≤ '\u200A') ∨
  c = '\u2028' ∨ c = '\u2029' ∨ c = '\u202F' ∨ c = '\u205F' ∨
  c = '\u3000' ∨ c = '\uFEFF'

/-- `input.value.trim()` (line 56): strip leading and trailing whitespace. -/
def jsTrim (s : String) : String :=
  (((s.data.dropWhile isJsWs).reverse.dropWhile isJsWs).reverse).asString

/-- A parsed JSON response body, restricted to the shape the handler reads:
`null`, or an object with optional string fields `error` and `result`. -/
inductive JsonData
  | jnull
  | jobj (error : Option String) (result : Option String)
deriving DecidableEq

/-- Result of `response.json()`: a parsed value, or an exception carrying the
engine's message when the body is not valid JSON. -/
inductive BodyParse
  | parsed (data : JsonData)
  | unparseable (excMsg : String)
deriving DecidableEq

/-- The `fetch` response: its HTTP status and its body. -/
structure HttpResponse where
  status : Nat
  body : BodyParse
deriving DecidableEq

/-- `response.ok` — true exactly for 2xx statuses (fetch semantics). -/
def HttpResponse.ok (r : HttpResponse) : Bool := 200 ≤ r.status ∧ r.status ≤ 299

/-- The network outcome of the single `fetch` call: a response, or a
transport failure whose exception message `error.message` is carried. -/
inductive Outcome
  | response (r : HttpResponse)
  | networkFailure (excMsg : String)
deriving DecidableEq

/-- The final update of the placeholder bot message: `innerHTML` assignment
(line 93) or `textContent` assignment (lines 96, 102). -/
inductive BotUpdate
  | html (content : String)
  | text (content : String)
deriving DecidableEq

/-- Fixed prefix of every catch-branch message (line 102). -/
def failPre : String := "Gagal mendapatkan respon dari server: "

/-- Fixed no-result message (lines 96–97). -/
def noResponseMsg : String := "Maaf, tidak ada respon yang diterima."

/-- Fixed placeholder text (line 67). -/
def thinkingMsg : String := "Gemini sedang berpikir..."

/-- Generic error message embedding the numeric status (line 85). -/
def statusMsg (status : Nat) : String :=
  "Server responded with status " ++ toString status

/-- JS `x || dflt` for an optional string-valued field: `none` (absent field)
and the empty string are falsy and select the default. -/
def orFalsy (v : Option String) (dflt : String) : String :=
  match v with
  | some s => if s = "" then dflt else s
  | none => dflt

/-- The thrown message on a non-ok response (lines 84–86):
`errorData?.error || 'Server responded with status ...'`, where a body that
fails to parse yields `errorData = null`. -/
def errorText (r : HttpResponse) : String :=
  match r.body with
  | .parsed (.jobj e _) => orFalsy e (statusMsg r.status)
  | _ => statusMsg r.status

/-- Lines 82–102: how the placeholder is finally updated, given the network
outcome.  A non-ok response throws `errorText` which the catch wraps in
`failPre`; an ok response uses `data.result` when truthy (present and
non-empty), else the fixed no-result text; an ok response whose body fails
to parse throws from `response.json()` into the same catch. -/
def finalUpdate (outcome : Outcome) : BotUpdate :=
  match outcome with
  | .networkFailure m => .text (failPre ++ m)
  | .response r =>
    if r.ok then
      match r.body with
      | .unparseable m => .text (failPre ++ m)
      | .parsed .jnull => .text noResponseMsg
      | .parsed (.jobj _ res) =>
        match res with
        | some t => if t = "" then .text noResponseMsg else .html (formatGeminiResponse t)
        | none => .text noResponseMsg
    else .text (failPre ++ errorText r)

/-- The request of line 71–80: `POST /api/chat` with a JSON content type and
a single-element `message` array. -/
structure ChatMsg where
  role : String
  content : String
deriving DecidableEq

/-- The issued HTTP request (url, method, header, and parsed body shape). -/
structure ChatRequest where
  url : String
  method : String
  contentType : String
  message : List ChatMsg
deriving DecidableEq

/-- The request built on line 71–80 for a given (trimmed) user message. -/
def chatRequestFor (userMessage : String) : ChatRequest :=
  { url := "/api/chat", method := "POST", contentType := "application/json",
    message := [{ role := "user", content := userMessage }] }

/-- Visible effects of one submission that passed the empty-input guard:
the user entry appended by `appendMessage` (line 63) and the placeholder
bot entry appended by `appendMessage` (line 67) — `appendMessage` assigns
`innerHTML` for every append (line 48), so both are recorded as `html`
updates — the single request issued (lines 71–80), and the final update
of the placeholder element (lines 92–102). -/
structure Submitted where
  userEntry : BotUpdate
  placeholder : BotUpdate
  request : ChatRequest
  finalBot : BotUpdate
deriving DecidableEq

/-- Result of the submit listener: `idle` when the guard on line 57 returns
early (no transcript entry, no request, input field untouched), otherwise
the effects of the submission (with the input field cleared, line 64). -/
inductive SubmitResult
  | idle
  | submitted (s : Submitted)
deriving DecidableEq

/-- The `'submit'` listener (lines 54–107) as a function of the input-field
value and the network outcome of its single `fetch`. -/
def handleSubmit (inputValue : String) (outcome : Outcome) : SubmitResult :=
  let userMessage := jsTrim inputValue
  if userMessage = "" then .idle
  else .submitted {
    userEntry := .html userMessage,
    placeholder := .html thinkingMsg,
    request := chatRequestFor userMessage,
    finalBot := finalUpdate outcome }

/-! ## Stage lemmas: behaviour on plain text -/

theorem prefixOf_cons {p c : Char} {ps cs : List Char} :
    (p :: ps).isPrefixOf (c :: cs) = (p == c && ps.isPrefixOf cs) := rfl

theorem escape_eq_self {cs : List Char} (h : ∀ c ∈ cs, c ≠ '<' ∧ c ≠ '>') :
    escape cs = cs := by
  induction cs with
  | nil => rfl
  | cons c rest ih =>
    have hc := h c (List.mem_cons_self c rest)
    simp only [escape, List.map_cons, List.flatten_cons, escChar, if_neg hc.1, if_neg hc.2]
    exact congrArg (c :: ·) (ih fun d hd => h d (List.mem_cons_of_mem c hd))

theorem bold_eq_self {cs : List Char} (h : countSub (str "**") cs = 0) :
    bold cs = cs := by
  induction cs with
  | nil => rw [bold]
  | cons c rest ih =>
    have hcond : ¬(c = '*' ∧ rest.head? = some '*') := by
      rintro ⟨rfl, hh⟩
      cases rest with
      | nil => simp at hh
      | cons r rs =>
        have hr : r = '*' := by simpa using hh
        subst hr
        simp [countSub, str, prefixOf_cons] at h
    rw [countSub] at h
    have h2 : countSub (str "**") rest = 0 := by omega
    simp only [bold, if_neg hcond]
    exact congrArg (c :: ·) (ih h2)

theorem splitNl_no_term {cs : List Char} (h : ∀ c ∈ cs, isLineTerm c = false) :
    splitNl cs = (cs, none) := by
  induction cs with
  | nil => rfl
  | cons c rest ih =>
    have hc : isLineTerm c = false := h c (List.mem_cons_self c rest)
    have h2 : ∀ d ∈ rest, isLineTerm d = false :=
      fun d hd => h d (List.mem_cons_of_mem c hd)
    simp [splitNl, hc, ih h2]

theorem liLine_eq_self {l : List Char} (h : l.take 2 ≠ str "* ") : liLine l = l := by
  simp [liLine, h]

theorem listify_eq_self {cs : List Char} (hn : ∀ c ∈ cs, isLineTerm c = false)
    (hl : cs.take 2 ≠ str "* ") : listify cs = cs := by
  rw [listify]
  split
  next heq =>
    rw [splitNl_no_term hn]
    exact liLine_eq_self hl
  next pr heq =>
    rw [splitNl_no_term hn] at heq
    cases heq

theorem splitFirst_none_of_head_notMem {p : Char} {ps cs : List Char} (h : p ∉ cs) :
    splitFirst (p :: ps) cs = none := by
  induction cs with
  | nil => rfl
  | cons c rest ih =>
    have hc : p ≠ c := fun hc => h (hc ▸ List.mem_cons_self c rest)
    have h2 : p ∉ rest := fun hm => h (List.mem_cons_of_mem c hm)
    simp [splitFirst, prefixOf_cons, hc, ih h2]

theorem wrapUl_eq_self {cs : List Char} (h : '<' ∉ cs) : wrapUl cs = cs := by
  rw [wrapUl]
  rw [show str "<li>" = '<' :: str "li>" from rfl]
  rw [splitFirst_none_of_head_notMem h]

theorem nlToBr_eq_self {cs : List Char} (h : '\n' ∉ cs) : nlToBr cs = cs := by
  induction cs with
  | nil => rfl
  | cons c rest ih =>
    have hc : c ≠ '\n' := fun hc => h (hc ▸ List.mem_cons_self c rest)
    have h2 : '\n' ∉ rest := fun hm => h (List.mem_cons_of_mem c hm)
    simp only [nlToBr, List.map_cons, List.flatten_cons, brChar, if_neg hc] at *
    exact congrArg (c :: ·) (ih h2)

theorem fixBefore_eq_self {cs : List Char} (h : '<' ∉ cs) : fixBefore cs = cs := by
  induction cs using fixBefore.induct with
  | case1 => rw [fixBefore]
  | case2 c rest hpre ih =>
    have hc : '<' ≠ c := fun hc => h (hc ▸ List.mem_cons_self c rest)
    rw [show str "<br><ul>" = '<' :: str "br><ul>" from rfl, prefixOf_cons] at hpre
    simp [beq_iff_eq, hc] at hpre
  | case3 c rest hpre ih =>
    have h2 : '<' ∉ rest := fun hm => h (List.mem_cons_of_mem c hm)
    rw [fixBefore, if_neg hpre]
    exact congrArg (c :: ·) (ih h2)

theorem fixAfter_eq_self {cs : List Char} (h : '<' ∉ cs) : fixAfter cs = cs := by
  induction cs using fixAfter.induct with
  | case1 => rw [fixAfter]
  | case2 c rest hpre ih =>
    have hc : '<' ≠ c := fun hc => h (hc ▸ List.mem_cons_self c rest)
    rw [show str "</ul><br>" = '<' :: str "/ul><br>" from rfl, prefixOf_cons] at hpre
    simp [beq_iff_eq, hc] at hpre
  | case3 c rest hpre ih =>
    have h2 : '<' ∉ rest := fun hm => h (List.mem_cons_of_mem c hm)
    rw [fixAfter, if_neg hpre]
    exact congrArg (c :: ·) (ih h2)

theorem asString_data (s : String) : s.data.asString = s := rfl

/-! ## Stage lemmas: stepping through the pipeline on structured inputs -/

theorem bold_cons_ne {c : Char} {r : List Char} (h : c ≠ '*') :
    bold (c :: r) = c :: bold r := by
  have hcond : ¬(c = '*' ∧ r.head? = some '*') := fun hc => h hc.1
  simp only [bold, if_neg hcond]

theorem bold_star_space (r : List Char) : bold ('*' :: ' ' :: r) = '*' :: ' ' :: bold r := by
  simp only [bold]
  rw [if_neg (show ¬(True ∧ (' ' :: r).head? = some '*') by simp),
    if_neg (show ¬(' ' = '*' ∧ r.head? = some '*') by simp)]

theorem bold_append_no_star {u : List Char} (h : '*' ∉ u) (r : List Char) :
    bold (u ++ r) = u ++ bold r := by
  induction u with
  | nil => simp
  | cons c t ih =>
    have hc : c ≠ '*' := fun hc => h (hc ▸ List.mem_cons_self c t)
    have h2 : '*' ∉ t := fun hm => h (List.mem_cons_of_mem c hm)
    simp only [List.cons_append, bold_cons_ne hc, ih h2]

theorem bold_no_star {u : List Char} (h : '*' ∉ u) : bold u = u := by
  induction u with
  | nil => rw [bold]
  | cons c t ih =>
    have hc : c ≠ '*' := fun hc => h (hc ▸ List.mem_cons_self c t)
    have h2 : '*' ∉ t := fun hm => h (List.mem_cons_of_mem c hm)
    rw [bold_cons_ne hc, ih h2]

theorem splitNl_before {u : List Char} (h : ∀ c ∈ u, isLineTerm c = false)
    {c0 : Char} (hc0 : isLineTerm c0 = true) (r : List Char) :
    splitNl (u ++ c0 :: r) = (u, some (c0, r)) := by
  induction u with
  | nil => simp [splitNl, hc0]
  | cons c t ih =>
    have hc : isLineTerm c = false := h c (List.mem_cons_self c t)
    have h2 : ∀ d ∈ t, isLineTerm d = false :=
      fun d hd => h d (List.mem_cons_of_mem c hd)
    simp [splitNl, hc, ih h2]

theorem take2_ne_star_space {x : List Char} (h : '*' ∉ x) : x.take 2 ≠ str "* " := by
  cases x with
  | nil => decide
  | cons c t =>
    have hc : c ≠ '*' := fun hc => h (hc ▸ List.mem_cons_self c t)
    intro he
    rw [show str "* " = ['*', ' '] from rfl] at he
    exact hc (by simpa using congrArg (fun l => l.head?) he)

theorem listify_step {u : List Char} (h : ∀ c ∈ u, isLineTerm c = false)
    {c0 : Char} (hc0 : isLineTerm c0 = true) (r : List Char) :
    listify (u ++ c0 :: r) = liLine u ++ c0 :: listify r := by
  rw [listify]
  split
  next heq =>
    rw [splitNl_before h hc0] at heq
    cases heq
  next pr heq =>
    rw [splitNl_before h hc0] at heq
    obtain rfl : (c0, r) = pr := by simpa using heq
    rw [splitNl_before h hc0]

theorem listify_no_term {u : List Char} (h : ∀ c ∈ u, isLineTerm c = false) :
    listify u = liLine u := by
  rw [listify]
  split
  next heq => rw [splitNl_no_term h]
  next pr heq =>
    rw [splitNl_no_term h] at heq
    cases heq

theorem liLine_star (a : List Char) :
    liLine ('*' :: ' ' :: a) = str "<li>" ++ a ++ str "</li>" := by
  simp [liLine, str]

theorem isPrefixOf_append_self (u v : List Char) : u.isPrefixOf (u ++ v) = true := by
  induction u with
  | nil => cases v <;> rfl
  | cons c t ih => simp [prefixOf_cons, ih]

theorem splitFirst_self {p : Char} {ps : List Char} (r : List Char) :
    splitFirst (p :: ps) ((p :: ps) ++ r) = some ([], r) := by
  have hp : (p :: ps).isPrefixOf (p :: (ps ++ r)) = true := by
    simpa using isPrefixOf_append_self (p :: ps) r
  rw [show (p :: ps) ++ r = p :: (ps ++ r) from rfl, splitFirst, if_pos hp,
    show p :: (ps ++ r) = (p :: ps) ++ r from rfl, List.drop_left]

theorem splitLast_append_some {pat v : List Char} {pr : List Char × List Char}
    (h : splitLast pat v = some pr) (u : List Char) :
    splitLast pat (u ++ v) = some (u ++ pr.1, pr.2) := by
  induction u with
  | nil => simpa using h
  | cons c t ih =>
    rw [List.cons_append, splitLast, ih]
    rfl

theorem splitLast_endli : splitLast (str "</li>") (str "</li>") = some ([], []) := by
  decide

theorem nlToBr_append (u v : List Char) : nlToBr (u ++ v) = nlToBr u ++ nlToBr v := by
  simp [nlToBr]

theorem nlToBr_nl (v : List Char) : nlToBr ('\n' :: v) = str "<br>" ++ nlToBr v := by
  simp [nlToBr, brChar, str]

theorem isPrefixOf_append_plain {pc : Char} {ps x r : List Char}
    (hx : ∀ c ∈ x, c ≠ pc) (hr : ¬ (pc :: ps).isPrefixOf r = true) :
    ¬ (pc :: ps).isPrefixOf (x ++ r) = true := by
  cases x with
  | nil => simpa using hr
  | cons c t =>
    have hc : c ≠ pc := hx c (List.mem_cons_self c t)
    simp [prefixOf_cons, beq_iff_eq]
    intro he
    exact absurd he.symm hc

theorem fixBefore_cons_not {c : Char} {r : List Char}
    (h : ¬ (str "<br><ul>").isPrefixOf (c :: r) = true) :
    fixBefore (c :: r) = c :: fixBefore r := by
  rw [fixBefore, if_neg h]

theorem fixBefore_append_no_lt {u : List Char} (h : '<' ∉ u) (v : List Char) :
    fixBefore (u ++ v) = u ++ fixBefore v := by
  induction u with
  | nil => simp
  | cons c t ih =>
    have hc : c ≠ '<' := fun hc => h (hc ▸ List.mem_cons_self c t)
    have h2 : '<' ∉ t := fun hm => h (List.mem_cons_of_mem c hm)
    rw [List.cons_append, fixBefore_cons_not (by
      rw [show str "<br><ul>" = '<' :: str "br><ul>" from rfl, prefixOf_cons]
      simp [beq_iff_eq]
      intro he
      exact absurd he.symm hc), ih h2]
    rfl

theorem fixBefore_ul (v : List Char) :
    fixBefore (str "<ul>" ++ v) = str "<ul>" ++ fixBefore v := by
  rw [show str "<ul>" ++ v = '<' :: (str "ul>" ++ v) from by simp [str],
    fixBefore_cons_not (by simp [str, prefixOf_cons]),
    fixBefore_append_no_lt (by decide) v]
  simp [str]

theorem fixBefore_li (v : List Char) :
    fixBefore (str "<li>" ++ v) = str "<li>" ++ fixBefore v := by
  rw [show str "<li>" ++ v = '<' :: (str "li>" ++ v) from by simp [str],
    fixBefore_cons_not (by simp [str, prefixOf_cons]),
    fixBefore_append_no_lt (by decide) v]
  simp [str]

theorem fixBefore_endli (v : List Char) :
    fixBefore (str "</li>" ++ v) = str "</li>" ++ fixBefore v := by
  rw [show str "</li>" ++ v = '<' :: (str "/li>" ++ v) from by simp [str],
    fixBefore_cons_not (by simp [str, prefixOf_cons]),
    fixBefore_append_no_lt (by decide) v]
  simp [str]

theorem fixBefore_endul (v : List Char) :
    fixBefore (str "</ul>" ++ v) = str "</ul>" ++ fixBefore v := by
  rw [show str "</ul>" ++ v = '<' :: (str "/ul>" ++ v) from by simp [str],
    fixBefore_cons_not (by simp [str, prefixOf_cons]),
    fixBefore_append_no_lt (by decide) v]
  simp [str]

theorem fixBefore_br {v : List Char} (h : ¬ (str "<ul>").isPrefixOf v = true) :
    fixBefore (str "<br>" ++ v) = str "<br>" ++ fixBefore v := by
  rw [show str "<br>" ++ v = '<' :: (str "br>" ++ v) from by simp [str],
    fixBefore_cons_not (by
      rw [show str "<br><ul>" = '<' :: str "br><ul>" from rfl, prefixOf_cons]
      simp [str, prefixOf_cons] at h ⊢
      exact h),
    fixBefore_append_no_lt (by decide) v]
  simp [str]

theorem fixAfter_cons_not {c : Char} {r : List Char}
    (h : ¬ (str "</ul><br>").isPrefixOf (c :: r) = true) :
    fixAfter (c :: r) = c :: fixAfter r := by
  rw [fixAfter, if_neg h]

theorem fixAfter_append_no_lt {u : List Char} (h : '<' ∉ u) (v : List Char) :
    fixAfter (u ++ v) = u ++ fixAfter v := by
  induction u with
  | nil => simp
  | cons c t ih =>
    have hc : c ≠ '<' := fun hc => h (hc ▸ List.mem_cons_self c t)
    have h2 : '<' ∉ t := fun hm => h (List.mem_cons_of_mem c hm)
    rw [List.cons_append, fixAfter_cons_not (by
      rw [show str "</ul><br>" = '<' :: str "/ul><br>" from rfl, prefixOf_cons]
      simp [beq_iff_eq]
      intro he
      exact absurd he.symm hc), ih h2]
    rfl

theorem fixAfter_ul (v : List Char) :
    fixAfter (str "<ul>" ++ v) = str "<ul>" ++ fixAfter v := by
  rw [show str "<ul>" ++ v = '<' :: (str "ul>" ++ v) from by simp [str],
    fixAfter_cons_not (by simp [str, prefixOf_cons]),
    fixAfter_append_no_lt (by decide) v]
  simp [str]

theorem fixAfter_li (v : List Char) :
    fixAfter (str "<li>" ++ v) = str "<li>" ++ fixAfter v := by
  rw [show str "<li>" ++ v = '<' :: (str "li>" ++ v) from by simp [str],
    fixAfter_cons_not (by simp [str, prefixOf_cons]),
    fixAfter_append_no_lt (by decide) v]
  simp [str]

theorem fixAfter_endli (v : List Char) :
    fixAfter (str "</li>" ++ v) = str "</li>" ++ fixAfter v := by
  rw [show str "</li>" ++ v = '<' :: (str "/li>" ++ v) from by simp [str],
    fixAfter_cons_not (by simp [str, prefixOf_cons]),
    fixAfter_append_no_lt (by decide) v]
  simp [str]

theorem fixAfter_br (v : List Char) :
    fixAfter (str "<br>" ++ v) = str "<br>" ++ fixAfter v := by
  rw [show str "<br>" ++ v = '<' :: (str "br>" ++ v) from by simp [str],
    fixAfter_cons_not (by simp [str, prefixOf_cons]),
    fixAfter_append_no_lt (by decide) v]
  simp [str]

theorem fixBefore_endul_last : fixBefore (str "</ul>") = str "</ul>" := by
  rw [show (str "</ul>" : List Char) = str "</ul>" ++ [] from by simp, fixBefore_endul,
    show fixBefore [] = [] from by rw [fixBefore]]

theorem fixAfter_endul {v : List Char} (h : ¬ (str "<br>").isPrefixOf v = true) :
    fixAfter (str "</ul>" ++ v) = str "</ul>" ++ fixAfter v := by
  rw [show str "</ul>" ++ v = '<' :: (str "/ul>" ++ v) from by simp [str],
    fixAfter_cons_not (by
      rw [show str "</ul><br>" = '<' :: str "/ul><br>" from rfl, prefixOf_cons]
      simp [str, prefixOf_cons] at h ⊢
      exact h),
    fixAfter_append_no_lt (by decide) v]
  simp [str]

theorem fixAfter_endul_last : fixAfter (str "</ul>") = str "</ul>" := by
  rw [show (str "</ul>" : List Char) = str "</ul>" ++ [] from by simp,
    fixAfter_endul (by decide),
    show fixAfter [] = [] from by rw [fixAfter]]

/-! ## Safety: every angle bracket of the output belongs to a fixed tag

`Safe cs` says `cs` is a concatenation of single non-angle-bracket
characters and whole tags from the formatter's fixed tag set, so every `<`
in `cs` starts one of those tags and every `>` ends one. -/

/-- The fixed set of tags the formatter emits. -/
def tagStrings : List (List Char) :=
  [str "<strong>", str "</strong>", str "<li>", str "</li>",
   str "<ul>", str "</ul>", str "<br>"]

/-- Decomposition into non-angle-bracket characters and whole fixed tags. -/
inductive Safe : List Char → Prop
  | nil : Safe []
  | chr {c : Char} {s : List Char} : c ≠ '<' → c ≠ '>' → Safe s → Safe (c :: s)
  | tag {t s : List Char} : t ∈ tagStrings → Safe s → Safe (t ++ s)

theorem tag_cases {t : List Char} (ht : t ∈ tagStrings) :
    t = str "<strong>" ∨ t = str "</strong>" ∨ t = str "<li>" ∨ t = str "</li>" ∨
    t = str "<ul>" ∨ t = str "</ul>" ∨ t = str "<br>" := by
  simpa [tagStrings] using ht

theorem noAngle_safe {cs : List Char} (h : ∀ c ∈ cs, c ≠ '<' ∧ c ≠ '>') : Safe cs := by
  induction cs with
  | nil => exact Safe.nil
  | cons c rest ih =>
    have hc := h c (List.mem_cons_self c rest)
    exact Safe.chr hc.1 hc.2 (ih fun d hd => h d (List.mem_cons_of_mem c hd))

theorem safe_append {u v : List Char} (hu : Safe u) (hv : Safe v) : Safe (u ++ v) := by
  induction hu with
  | nil => simpa using hv
  | chr hc hg _ ih => exact Safe.chr hc hg ih
  | tag ht _ ih =>
    rw [List.append_assoc]
    exact Safe.tag ht ih

theorem safe_tag_self {t : List Char} (ht : t ∈ tagStrings) : Safe t := by
  simpa using Safe.tag ht Safe.nil

theorem safe_tail_aux {cs : List Char} (h : Safe cs) :
    ∀ {c : Char} {s : List Char}, cs = c :: s → c ≠ '<' → Safe s := by
  cases h with
  | nil =>
    intro c s hcs _
    cases hcs
  | chr hc hg hs =>
    intro c s hcs _
    injection hcs with h1 h2
    exact h2 ▸ hs
  | tag ht hs =>
    intro c s hcs hne
    exfalso
    rcases tag_cases ht with rfl | rfl | rfl | rfl | rfl | rfl | rfl <;>
      · injection hcs with h1 _
        exact hne h1.symm

theorem safe_tail {c : Char} {s : List Char} (h : Safe (c :: s)) (hc : c ≠ '<') :
    Safe s :=
  safe_tail_aux h rfl hc

/-- In a `Safe` list that starts with `<`, the decomposition must start
with a whole tag. -/
theorem safe_lt_split {s : List Char} (h : Safe s) {r : List Char} (hs : s = '<' :: r) :
    ∃ t s', t ∈ tagStrings ∧ s = t ++ s' ∧ Safe s' := by
  cases h with
  | nil => cases hs
  | chr hc _ _ =>
    exfalso
    apply hc
    simpa using congrArg (fun l => l.head?) hs
  | tag ht hs' => exact ⟨_, _, ht, rfl, hs'⟩
theorem escape_no_angle {cs : List Char} : ∀ c ∈ escape cs, c ≠ '<' ∧ c ≠ '>' := by
  induction cs with
  | nil => simp [escape]
  | cons c rest ih =>
    intro d hd
    simp only [escape, List.map_cons, List.flatten_cons, List.mem_append] at hd
    rcases hd with hd | hd
    · by_cases h1 : c = '<'
      · simp [escChar, h1, str] at hd
        rcases hd with rfl | rfl | rfl | rfl <;> exact ⟨by decide, by decide⟩
      · by_cases h2 : c = '>'
        · simp [escChar, h1, h2, str] at hd
          rcases hd with rfl | rfl | rfl | rfl <;> exact ⟨by decide, by decide⟩
        · simp [escChar, h1, h2] at hd
          exact hd ▸ ⟨h1, h2⟩
    · exact ih d hd

theorem findClose_decomp {l : List Char} {pr : List Char × List Char}
    (h : findClose l = some pr) : l = pr.1 ++ '*' :: '*' :: pr.2 := by
  induction l generalizing pr with
  | nil => simp [findClose] at h
  | cons c rest ih =>
    rw [findClose] at h
    split at h
    · rename_i hc
      obtain ⟨rfl, hh⟩ := hc
      cases h
      cases rest with
      | nil => simp at hh
      | cons r rs =>
        obtain rfl : r = '*' := by simpa using hh
        simp
    · split at h
      · simp at h
      · rcases Option.map_eq_some'.mp h with ⟨q, hq, hpr⟩
        rw [← hpr]
        simpa using congrArg (c :: ·) (@ih q hq)

theorem bold_cons_ncond {c : Char} {rest : List Char}
    (h : ¬(c = '*' ∧ rest.head? = some '*')) : bold (c :: rest) = c :: bold rest := by
  simp only [bold, if_neg h]

theorem bold_safe_aux : ∀ (n : Nat) (cs : List Char), cs.length ≤ n →
    (∀ c ∈ cs, c ≠ '<' ∧ c ≠ '>') → Safe (bold cs) := by
  intro n
  induction n with
  | zero =>
    intro cs hlen _
    rw [List.length_eq_zero.mp (Nat.le_zero.mp hlen)]
    rw [bold]
    exact Safe.nil
  | succ n ih =>
    intro cs hlen h
    cases cs with
    | nil =>
      rw [bold]
      exact Safe.nil
    | cons c rest =>
      have hrest : ∀ d ∈ rest, d ≠ '<' ∧ d ≠ '>' :=
        fun d hd => h d (List.mem_cons_of_mem c hd)
      have hlrest : rest.length ≤ n := by
        simpa using Nat.le_of_succ_le_succ (by simpa using hlen)
      by_cases hcond : c = '*' ∧ rest.head? = some '*'
      · cases hfc : findClose rest.tail with
        | some pr =>
          have hb : bold (c :: rest)
              = str "<strong>" ++ pr.1 ++ str "</strong>" ++ bold pr.2 := by
            rw [bold, if_pos hcond]
            split
            next pr' heq =>
              rw [hfc] at heq
              injection heq with h2
              rw [h2]
            next heq =>
              rw [hfc] at heq
              cases heq
          rw [hb]
          have hdecomp := findClose_decomp hfc
          have htail : ∀ d ∈ rest.tail, d ≠ '<' ∧ d ≠ '>' := by
            intro d hd
            apply hrest
            cases rest with
            | nil => simp at hd
            | cons r rs => exact List.mem_cons_of_mem r hd
          have h1 : ∀ d ∈ pr.1, d ≠ '<' ∧ d ≠ '>' :=
            fun d hd => htail d (hdecomp ▸ List.mem_append.mpr (Or.inl hd))
          have h2 : ∀ d ∈ pr.2, d ≠ '<' ∧ d ≠ '>' := by
            intro d hd
            exact htail d (hdecomp ▸ List.mem_append.mpr (Or.inr
              (List.mem_cons_of_mem _ (List.mem_cons_of_mem _ hd))))
          have hlen2 : pr.2.length ≤ n := by
            have hlq := congrArg List.length hdecomp
            simp only [List.length_append, List.length_cons] at hlq
            have htl : rest.tail.length ≤ rest.length := by cases rest <;> simp
            omega
          exact safe_append (safe_append (safe_append
            (safe_tag_self (by simp [tagStrings])) (noAngle_safe h1))
            (safe_tag_self (by simp [tagStrings]))) (ih pr.2 hlen2 h2)
        | none =>
          have hb : bold (c :: rest) = c :: bold rest := by
            rw [bold, if_pos hcond]
            split
            next pr' heq =>
              rw [hfc] at heq
              cases heq
            next heq => rfl
          rw [hb]
          obtain ⟨rfl, -⟩ := hcond
          exact Safe.chr (by decide) (by decide) (ih rest hlrest hrest)
      · rw [bold_cons_ncond hcond]
        exact Safe.chr (h c (List.mem_cons_self c rest)).1
          (h c (List.mem_cons_self c rest)).2 (ih rest hlrest hrest)

theorem bold_safe {cs : List Char} (h : ∀ c ∈ cs, c ≠ '<' ∧ c ≠ '>') :
    Safe (bold cs) :=
  bold_safe_aux cs.length cs (Nat.le_refl _) h

theorem tag_no_nl {t : List Char} (ht : t ∈ tagStrings) : '\n' ∉ t := by
  rcases tag_cases ht with rfl | rfl | rfl | rfl | rfl | rfl | rfl <;> decide

theorem tag_no_term {t : List Char} (ht : t ∈ tagStrings) :
    ∀ c ∈ t, isLineTerm c = false := by
  rcases tag_cases ht with rfl | rfl | rfl | rfl | rfl | rfl | rfl <;> decide

theorem splitNl_append_no_nl {t : List Char} (h : ∀ c ∈ t, isLineTerm c = false)
    (s : List Char) :
    splitNl (t ++ s) = (t ++ (splitNl s).1, (splitNl s).2) := by
  induction t with
  | nil => simp
  | cons c u ih =>
    have hc : isLineTerm c = false := h c (List.mem_cons_self c u)
    have h2 : ∀ d ∈ u, isLineTerm d = false :=
      fun d hd => h d (List.mem_cons_of_mem c hd)
    simp [splitNl, hc, ih h2]

theorem splitNl_safe {cs : List Char} (h : Safe cs) :
    Safe (splitNl cs).1 ∧ ∀ pr, (splitNl cs).2 = some pr → Safe pr.2 := by
  induction h with
  | nil =>
    refine ⟨Safe.nil, ?_⟩
    intro pr hr
    simp [splitNl] at hr
  | chr hc hg hs ih =>
    rename_i c s
    by_cases hn : isLineTerm c = true
    · constructor
      · simp only [splitNl, if_pos hn]
        exact Safe.nil
      · intro pr hr
        simp only [splitNl, if_pos hn] at hr
        simp at hr
        rw [← hr]
        exact hs
    · constructor
      · simp only [splitNl, if_neg hn]
        exact Safe.chr hc hg ih.1
      · intro pr hr
        simp only [splitNl, if_neg hn] at hr
        exact ih.2 pr hr
  | tag ht hs ih =>
    rw [splitNl_append_no_nl (tag_no_term ht)]
    exact ⟨Safe.tag ht ih.1, ih.2⟩

theorem liLine_safe {l : List Char} (h : Safe l) : Safe (liLine l) := by
  rw [liLine]
  split
  next htake =>
    have hshape : l = '*' :: ' ' :: l.drop 2 := by
      cases l with
      | nil => simp [str] at htake
      | cons c1 t1 =>
        cases t1 with
        | nil => simp [str] at htake
        | cons c2 t2 =>
          rw [show (c1 :: c2 :: t2).take 2 = [c1, c2] from rfl,
            show str "* " = ['*', ' '] from rfl] at htake
          obtain ⟨rfl, rfl⟩ : c1 = '*' ∧ c2 = ' ' := by simpa using htake
          rfl
    have hd : Safe (l.drop 2) :=
      safe_tail (safe_tail (hshape ▸ h) (by decide)) (by decide)
    exact safe_append (safe_append (safe_tag_self (by simp [tagStrings])) hd)
      (safe_tag_self (by simp [tagStrings]))
  next => exact h

theorem listify_safe_aux : ∀ (n : Nat) (cs : List Char), cs.length ≤ n →
    Safe cs → Safe (listify cs) := by
  intro n
  induction n with
  | zero =>
    intro cs hlen _
    rw [List.length_eq_zero.mp (Nat.le_zero.mp hlen)]
    rw [listify_no_term (by simp)]
    exact liLine_safe Safe.nil
  | succ n ih =>
    intro cs hlen h
    rw [listify]
    split
    next heq => exact liLine_safe (splitNl_safe h).1
    next pr heq =>
      have hterm := splitNl_term heq
      refine safe_append (liLine_safe (splitNl_safe h).1)
        (Safe.chr (lineTerm_not_angle hterm).1 (lineTerm_not_angle hterm).2
          (ih pr.2 ?_ ((splitNl_safe h).2 pr heq)))
      have := splitNl_rest_len heq
      omega

theorem listify_safe {cs : List Char} (h : Safe cs) : Safe (listify cs) :=
  listify_safe_aux cs.length cs (Nat.le_refl _) h

theorem nil_prefixOf (s : List Char) : ([] : List Char).isPrefixOf s = true := by
  cases s <;> rfl

theorem splitFirst_cons_not {pat : List Char} {c : Char} {r : List Char}
    (h : ¬ pat.isPrefixOf (c :: r) = true) :
    splitFirst pat (c :: r) = (splitFirst pat r).map fun pr => (c :: pr.1, pr.2) := by
  rw [splitFirst, if_neg h]

theorem splitFirst_tag_step {t : List Char} (ht : t ∈ tagStrings) (hne : t ≠ str "<li>")
    (s : List Char) :
    splitFirst (str "<li>") (t ++ s)
      = (splitFirst (str "<li>") s).map fun pr => (t ++ pr.1, pr.2) := by
  rcases tag_cases ht with rfl | rfl | rfl | rfl | rfl | rfl | rfl
  · simp [splitFirst, str, prefixOf_cons, Option.map_map]
    rfl
  · simp [splitFirst, str, prefixOf_cons, Option.map_map]
    rfl
  · exact absurd rfl hne
  · simp [splitFirst, str, prefixOf_cons, Option.map_map]
    rfl
  · simp [splitFirst, str, prefixOf_cons, Option.map_map]
    rfl
  · simp [splitFirst, str, prefixOf_cons, Option.map_map]
    rfl
  · simp [splitFirst, str, prefixOf_cons, Option.map_map]
    rfl

theorem splitFirst_li_safe {cs : List Char} (h : Safe cs) :
    ∀ pr, splitFirst (str "<li>") cs = some pr → Safe pr.1 ∧ Safe pr.2 := by
  induction h with
  | nil =>
    intro pr hpr
    cases hpr
  | chr hc hg hs ih =>
    rename_i c s
    intro pr hpr
    rw [splitFirst_cons_not (by
      rw [show str "<li>" = '<' :: str "li>" from rfl, prefixOf_cons]
      simp [beq_iff_eq]
      intro he
      exact absurd he.symm hc)] at hpr
    rcases Option.map_eq_some'.mp hpr with ⟨q, hq, hqpr⟩
    rcases ih q hq with ⟨ih1, ih2⟩
    rw [← hqpr]
    exact ⟨Safe.chr hc hg ih1, ih2⟩
  | tag ht hs ih =>
    rename_i t s
    intro pr hpr
    by_cases hne : t = str "<li>"
    · subst hne
      have heq : splitFirst (str "<li>") (str "<li>" ++ s) = some ([], s) :=
        splitFirst_self s
      rw [heq] at hpr
      obtain rfl : (([] : List Char), s) = pr := by simpa using hpr
      exact ⟨Safe.nil, hs⟩
    · rw [splitFirst_tag_step ht hne] at hpr
      rcases Option.map_eq_some'.mp hpr with ⟨q, hq, hqpr⟩
      rcases ih q hq with ⟨ih1, ih2⟩
      rw [← hqpr]
      exact ⟨Safe.tag ht ih1, ih2⟩

theorem splitLast_cons_some {pat : List Char} {c : Char} {r : List Char}
    {q : List Char × List Char} (hq : splitLast pat r = some q) :
    splitLast pat (c :: r) = some (c :: q.1, q.2) := by
  rw [splitLast, hq]

theorem splitLast_step_none {c : Char} {r : List Char}
    (hr : splitLast (str "</li>") r = none)
    (hc : ¬ (str "</li>").isPrefixOf (c :: r) = true) :
    splitLast (str "</li>") (c :: r) = none := by
  rw [splitLast, hr]
  dsimp only
  rw [if_neg hc]

theorem splitLast_tag_none {t s : List Char} (ht : t ∈ tagStrings)
    (hs : splitLast (str "</li>") s = none) :
    splitLast (str "</li>") (t ++ s)
      = if t = str "</li>" then some ([], s) else none := by
  have h1 : splitLast (str "</li>") ('>' :: s) = none :=
    splitLast_step_none hs (by simp [str, prefixOf_cons])
  rcases tag_cases ht with rfl | rfl | rfl | rfl | rfl | rfl | rfl
  · -- "<strong>"
    have h2 : splitLast (str "</li>") ('g' :: '>' :: s) = none :=
      splitLast_step_none h1 (by simp [str, prefixOf_cons])
    have h3 : splitLast (str "</li>") ('n' :: 'g' :: '>' :: s) = none :=
      splitLast_step_none h2 (by simp [str, prefixOf_cons])
    have h4 : splitLast (str "</li>") ('o' :: 'n' :: 'g' :: '>' :: s) = none :=
      splitLast_step_none h3 (by simp [str, prefixOf_cons])
    have h5 : splitLast (str "</li>") ('r' :: 'o' :: 'n' :: 'g' :: '>' :: s) = none :=
      splitLast_step_none h4 (by simp [str, prefixOf_cons])
    have h6 : splitLast (str "</li>") ('t' :: 'r' :: 'o' :: 'n' :: 'g' :: '>' :: s) = none :=
      splitLast_step_none h5 (by simp [str, prefixOf_cons])
    have h7 : splitLast (str "</li>") ('s' :: 't' :: 'r' :: 'o' :: 'n' :: 'g' :: '>' :: s) = none :=
      splitLast_step_none h6 (by simp [str, prefixOf_cons])
    have h8 : splitLast (str "</li>")
        ('<' :: 's' :: 't' :: 'r' :: 'o' :: 'n' :: 'g' :: '>' :: s) = none :=
      splitLast_step_none h7 (by simp [str, prefixOf_cons])
    rw [show str "<strong>" ++ s = '<' :: 's' :: 't' :: 'r' :: 'o' :: 'n' :: 'g' :: '>' :: s
      from by simp [str]]
    rw [h8, if_neg (by decide)]
  · -- "</strong>"
    have h2 : splitLast (str "</li>") ('g' :: '>' :: s) = none :=
      splitLast_step_none h1 (by simp [str, prefixOf_cons])
    have h3 : splitLast (str "</li>") ('n' :: 'g' :: '>' :: s) = none :=
      splitLast_step_none h2 (by simp [str, prefixOf_cons])
    have h4 : splitLast (str "</li>") ('o' :: 'n' :: 'g' :: '>' :: s) = none :=
      splitLast_step_none h3 (by simp [str, prefixOf_cons])
    have h5 : splitLast (str "</li>") ('r' :: 'o' :: 'n' :: 'g' :: '>' :: s) = none :=
      splitLast_step_none h4 (by simp [str, prefixOf_cons])
    have h6 : splitLast (str "</li>") ('t' :: 'r' :: 'o' :: 'n' :: 'g' :: '>' :: s) = none :=
      splitLast_step_none h5 (by simp [str, prefixOf_cons])
    have h7 : splitLast (str "</li>") ('s' :: 't' :: 'r' :: 'o' :: 'n' :: 'g' :: '>' :: s) = none :=
      splitLast_step_none h6 (by simp [str, prefixOf_cons])
    have h8 : splitLast (str "</li>")
        ('/' :: 's' :: 't' :: 'r' :: 'o' :: 'n' :: 'g' :: '>' :: s) = none :=
      splitLast_step_none h7 (by simp [str, prefixOf_cons])
    have h9 : splitLast (str "</li>")
        ('<' :: '/' :: 's' :: 't' :: 'r' :: 'o' :: 'n' :: 'g' :: '>' :: s) = none :=
      splitLast_step_none h8 (by simp [str, prefixOf_cons])
    rw [show str "</strong>" ++ s
        = '<' :: '/' :: 's' :: 't' :: 'r' :: 'o' :: 'n' :: 'g' :: '>' :: s from by simp [str]]
    rw [h9, if_neg (by decide)]
  · -- "<li>"
    have h2 : splitLast (str "</li>") ('i' :: '>' :: s) = none :=
      splitLast_step_none h1 (by simp [str, prefixOf_cons])
    have h3 : splitLast (str "</li>") ('l' :: 'i' :: '>' :: s) = none :=
      splitLast_step_none h2 (by simp [str, prefixOf_cons])
    have h4 : splitLast (str "</li>") ('<' :: 'l' :: 'i' :: '>' :: s) = none :=
      splitLast_step_none h3 (by simp [str, prefixOf_cons])
    rw [show str "<li>" ++ s = '<' :: 'l' :: 'i' :: '>' :: s from by simp [str]]
    rw [h4, if_neg (by decide)]
  · -- "</li>" itself: the prefix test at its head succeeds
    have h2 : splitLast (str "</li>") ('i' :: '>' :: s) = none :=
      splitLast_step_none h1 (by simp [str, prefixOf_cons])
    have h3 : splitLast (str "</li>") ('l' :: 'i' :: '>' :: s) = none :=
      splitLast_step_none h2 (by simp [str, prefixOf_cons])
    have h4 : splitLast (str "</li>") ('/' :: 'l' :: 'i' :: '>' :: s) = none :=
      splitLast_step_none h3 (by simp [str, prefixOf_cons])
    rw [show str "</li>" ++ s = '<' :: '/' :: 'l' :: 'i' :: '>' :: s from by simp [str]]
    rw [splitLast, h4]
    dsimp only
    rw [if_pos (by simp [str, prefixOf_cons, nil_prefixOf])]
    simp [str]
  · -- "<ul>"
    have h2 : splitLast (str "</li>") ('l' :: '>' :: s) = none :=
      splitLast_step_none h1 (by simp [str, prefixOf_cons])
    have h3 : splitLast (str "</li>") ('u' :: 'l' :: '>' :: s) = none :=
      splitLast_step_none h2 (by simp [str, prefixOf_cons])
    have h4 : splitLast (str "</li>") ('<' :: 'u' :: 'l' :: '>' :: s) = none :=
      splitLast_step_none h3 (by simp [str, prefixOf_cons])
    rw [show str "<ul>" ++ s = '<' :: 'u' :: 'l' :: '>' :: s from by simp [str]]
    rw [h4, if_neg (by decide)]
  · -- "</ul>"
    have h2 : splitLast (str "</li>") ('l' :: '>' :: s) = none :=
      splitLast_step_none h1 (by simp [str, prefixOf_cons])
    have h3 : splitLast (str "</li>") ('u' :: 'l' :: '>' :: s) = none :=
      splitLast_step_none h2 (by simp [str, prefixOf_cons])
    have h4 : splitLast (str "</li>") ('/' :: 'u' :: 'l' :: '>' :: s) = none :=
      splitLast_step_none h3 (by simp [str, prefixOf_cons])
    have h5 : splitLast (str "</li>") ('<' :: '/' :: 'u' :: 'l' :: '>' :: s) = none :=
      splitLast_step_none h4 (by simp [str, prefixOf_cons])
    rw [show str "</ul>" ++ s = '<' :: '/' :: 'u' :: 'l' :: '>' :: s from by simp [str]]
    rw [h5, if_neg (by decide)]
  · -- "<br>"
    have h2 : splitLast (str "</li>") ('r' :: '>' :: s) = none :=
      splitLast_step_none h1 (by simp [str, prefixOf_cons])
    have h3 : splitLast (str "</li>") ('b' :: 'r' :: '>' :: s) = none :=
      splitLast_step_none h2 (by simp [str, prefixOf_cons])
    have h4 : splitLast (str "</li>") ('<' :: 'b' :: 'r' :: '>' :: s) = none :=
      splitLast_step_none h3 (by simp [str, prefixOf_cons])
    rw [show str "<br>" ++ s = '<' :: 'b' :: 'r' :: '>' :: s from by simp [str]]
    rw [h4, if_neg (by decide)]

theorem splitLast_cli_safe {cs : List Char} (h : Safe cs) :
    ∀ pr, splitLast (str "</li>") cs = some pr → Safe pr.1 ∧ Safe pr.2 := by
  induction h with
  | nil =>
    intro pr hpr
    cases hpr
  | chr hc hg hs ih =>
    rename_i c s
    intro pr hpr
    cases hq : splitLast (str "</li>") s with
    | some q =>
      rw [splitLast_cons_some hq] at hpr
      obtain rfl : (c :: q.1, q.2) = pr := by simpa using hpr
      rcases ih q hq with ⟨ih1, ih2⟩
      exact ⟨Safe.chr hc hg ih1, ih2⟩
    | none =>
      rw [splitLast_step_none hq (by
        rw [show str "</li>" = '<' :: str "/li>" from rfl, prefixOf_cons]
        simp [beq_iff_eq]
        intro he
        exact absurd he.symm hc)] at hpr
      cases hpr
  | tag ht hs ih =>
    rename_i t s
    intro pr hpr
    cases hq : splitLast (str "</li>") s with
    | some q =>
      rw [splitLast_append_some hq] at hpr
      obtain rfl : (t ++ q.1, q.2) = pr := by simpa using hpr
      rcases ih q hq with ⟨ih1, ih2⟩
      exact ⟨Safe.tag ht ih1, ih2⟩
    | none =>
      rw [splitLast_tag_none ht hq] at hpr
      split at hpr
      next =>
        obtain rfl : (([] : List Char), s) = pr := by simpa using hpr
        exact ⟨Safe.nil, hs⟩
      next => cases hpr

theorem wrapUl_safe {cs : List Char} (h : Safe cs) : Safe (wrapUl cs) := by
  rw [wrapUl]
  cases hsf : splitFirst (str "<li>") cs with
  | none => exact h
  | some pr =>
    dsimp only
    cases hsl : splitLast (str "</li>") pr.2 with
    | none => exact h
    | some qr =>
      dsimp only
      rcases splitFirst_li_safe h pr hsf with ⟨h1, h2⟩
      rcases splitLast_cli_safe h2 qr hsl with ⟨h3, h4⟩
      have hul : Safe (str "<ul><li>") := by
        rw [show (str "<ul><li>" : List Char) = str "<ul>" ++ str "<li>" from by decide]
        exact safe_append (safe_tag_self (by simp [tagStrings]))
          (safe_tag_self (by simp [tagStrings]))
      have hcl : Safe (str "</li></ul>") := by
        rw [show (str "</li></ul>" : List Char) = str "</li>" ++ str "</ul>" from by decide]
        exact safe_append (safe_tag_self (by simp [tagStrings]))
          (safe_tag_self (by simp [tagStrings]))
      exact safe_append (safe_append (safe_append (safe_append h1 hul) h3) hcl) h4

theorem nlToBr_cons_ne {c : Char} {r : List Char} (hc : c ≠ '\n') :
    nlToBr (c :: r) = c :: nlToBr r := by
  simp [nlToBr, brChar, hc]

theorem nlToBr_safe {cs : List Char} (h : Safe cs) : Safe (nlToBr cs) := by
  induction h with
  | nil =>
    rw [show nlToBr [] = [] from rfl]
    exact Safe.nil
  | chr hc hg hs ih =>
    rename_i c s
    by_cases hn : c = '\n'
    · subst hn
      rw [nlToBr_nl]
      exact safe_append (safe_tag_self (by simp [tagStrings])) ih
    · rw [nlToBr_cons_ne hn]
      exact Safe.chr hc hg ih
  | tag ht hs ih =>
    rw [nlToBr_append, nlToBr_eq_self (tag_no_nl ht)]
    exact Safe.tag ht ih

theorem fixBefore_strong (v : List Char) :
    fixBefore (str "<strong>" ++ v) = str "<strong>" ++ fixBefore v := by
  rw [show str "<strong>" ++ v = '<' :: (str "strong>" ++ v) from by simp [str],
    fixBefore_cons_not (by simp [str, prefixOf_cons]),
    fixBefore_append_no_lt (by decide) v]
  simp [str]

theorem fixBefore_endstrong (v : List Char) :
    fixBefore (str "</strong>" ++ v) = str "</strong>" ++ fixBefore v := by
  rw [show str "</strong>" ++ v = '<' :: (str "/strong>" ++ v) from by simp [str],
    fixBefore_cons_not (by simp [str, prefixOf_cons]),
    fixBefore_append_no_lt (by decide) v]
  simp [str]

theorem fixAfter_strong (v : List Char) :
    fixAfter (str "<strong>" ++ v) = str "<strong>" ++ fixAfter v := by
  rw [show str "<strong>" ++ v = '<' :: (str "strong>" ++ v) from by simp [str],
    fixAfter_cons_not (by simp [str, prefixOf_cons]),
    fixAfter_append_no_lt (by decide) v]
  simp [str]

theorem fixAfter_endstrong (v : List Char) :
    fixAfter (str "</strong>" ++ v) = str "</strong>" ++ fixAfter v := by
  rw [show str "</strong>" ++ v = '<' :: (str "/strong>" ++ v) from by simp [str],
    fixAfter_cons_not (by simp [str, prefixOf_cons]),
    fixAfter_append_no_lt (by decide) v]
  simp [str]

/-- The cleanup hit of step 6a: a `<br>` directly followed by `<ul>` is
dropped, scanning continuing after the `<ul>`. -/
theorem fixBefore_brul (s : List Char) :
    fixBefore (str "<br>" ++ (str "<ul>" ++ s)) = str "<ul>" ++ fixBefore s := by
  rw [show str "<br>" ++ (str "<ul>" ++ s)
      = '<' :: ('b' :: 'r' :: '>' :: '<' :: 'u' :: 'l' :: '>' :: s) from by simp [str],
    fixBefore, if_pos (by simp [str, prefixOf_cons, nil_prefixOf])]
  simp [str]

/-- The cleanup hit of step 6b: a `</ul>` directly followed by `<br>` keeps
the `</ul>` and drops the `<br>`. -/
theorem fixAfter_ulbr (s : List Char) :
    fixAfter (str "</ul>" ++ (str "<br>" ++ s)) = str "</ul>" ++ fixAfter s := by
  rw [show str "</ul>" ++ (str "<br>" ++ s)
      = '<' :: ('/' :: 'u' :: 'l' :: '>' :: '<' :: 'b' :: 'r' :: '>' :: s) from by simp [str],
    fixAfter, if_pos (by simp [str, prefixOf_cons, nil_prefixOf])]
  simp [str]

theorem fixBefore_safe_aux : ∀ (n : Nat) (cs : List Char), cs.length ≤ n →
    Safe cs → Safe (fixBefore cs) := by
  intro n
  induction n with
  | zero =>
    intro cs hlen _
    rw [List.length_eq_zero.mp (Nat.le_zero.mp hlen), fixBefore]
    exact Safe.nil
  | succ n ih =>
    intro cs hlen h
    cases h with
    | nil =>
      rw [fixBefore]
      exact Safe.nil
    | chr hc hg hs =>
      rename_i c s
      rw [fixBefore_cons_not (by
        rw [show str "<br><ul>" = '<' :: str "br><ul>" from rfl, prefixOf_cons]
        simp [beq_iff_eq]
        intro he
        exact absurd he.symm hc)]
      refine Safe.chr hc hg (ih s ?_ hs)
      simp only [List.length_cons] at hlen
      omega
    | tag ht hs =>
      rename_i t s
      rcases tag_cases ht with rfl | rfl | rfl | rfl | rfl | rfl | rfl
      · rw [fixBefore_strong]
        exact Safe.tag ht (ih s (by simp [str] at hlen; omega) hs)
      · rw [fixBefore_endstrong]
        exact Safe.tag ht (ih s (by simp [str] at hlen; omega) hs)
      · rw [fixBefore_li]
        exact Safe.tag ht (ih s (by simp [str] at hlen; omega) hs)
      · rw [fixBefore_endli]
        exact Safe.tag ht (ih s (by simp [str] at hlen; omega) hs)
      · rw [fixBefore_ul]
        exact Safe.tag ht (ih s (by simp [str] at hlen; omega) hs)
      · rw [fixBefore_endul]
        exact Safe.tag ht (ih s (by simp [str] at hlen; omega) hs)
      · by_cases hul : (str "<ul>").isPrefixOf s = true
        · obtain ⟨s0, hs0⟩ := List.isPrefixOf_iff_prefix.mp hul
          obtain ⟨t', s', ht', heq, hs'⟩ := safe_lt_split hs
            (show s = '<' :: ('u' :: 'l' :: '>' :: s0) from by rw [← hs0]; simp [str])
          have ht'eq : t' = str "<ul>" := by
            rcases tag_cases ht' with rfl | rfl | rfl | rfl | rfl | rfl | rfl <;>
              first
              | rfl
              | · exfalso
                  rw [heq] at hs0
                  injection hs0 with e1 e2
                  injection e2 with e3 e4
                  exact absurd e3 (by decide)
          subst ht'eq
          rw [heq, fixBefore_brul]
          refine Safe.tag (show str "<ul>" ∈ tagStrings by simp [tagStrings])
            (ih s' ?_ hs')
          rw [heq] at hlen
          simp [str] at hlen
          omega
        · rw [fixBefore_br hul]
          exact Safe.tag ht (ih s (by simp [str] at hlen; omega) hs)

theorem fixBefore_safe {cs : List Char} (h : Safe cs) : Safe (fixBefore cs) :=
  fixBefore_safe_aux cs.length cs (Nat.le_refl _) h

theorem fixAfter_safe_aux : ∀ (n : Nat) (cs : List Char), cs.length ≤ n →
    Safe cs → Safe (fixAfter cs) := by
  intro n
  induction n with
  | zero =>
    intro cs hlen _
    rw [List.length_eq_zero.mp (Nat.le_zero.mp hlen), fixAfter]
    exact Safe.nil
  | succ n ih =>
    intro cs hlen h
    cases h with
    | nil =>
      rw [fixAfter]
      exact Safe.nil
    | chr hc hg hs =>
      rename_i c s
      rw [fixAfter_cons_not (by
        rw [show str "</ul><br>" = '<' :: str "/ul><br>" from rfl, prefixOf_cons]
        simp [beq_iff_eq]
        intro he
        exact absurd he.symm hc)]
      refine Safe.chr hc hg (ih s ?_ hs)
      simp only [List.length_cons] at hlen
      omega
    | tag ht hs =>
      rename_i t s
      rcases tag_cases ht with rfl | rfl | rfl | rfl | rfl | rfl | rfl
      · rw [fixAfter_strong]
        exact Safe.tag ht (ih s (by simp [str] at hlen; omega) hs)
      · rw [fixAfter_endstrong]
        exact Safe.tag ht (ih s (by simp [str] at hlen; omega) hs)
      · rw [fixAfter_li]
        exact Safe.tag ht (ih s (by simp [str] at hlen; omega) hs)
      · rw [fixAfter_endli]
        exact Safe.tag ht (ih s (by simp [str] at hlen; omega) hs)
      · rw [fixAfter_ul]
        exact Safe.tag ht (ih s (by simp [str] at hlen; omega) hs)
      · by_cases hbr : (str "<br>").isPrefixOf s = true
        · obtain ⟨s0, hs0⟩ := List.isPrefixOf_iff_prefix.mp hbr
          obtain ⟨t', s', ht', heq, hs'⟩ := safe_lt_split hs
            (show s = '<' :: ('b' :: 'r' :: '>' :: s0) from by rw [← hs0]; simp [str])
          have ht'eq : t' = str "<br>" := by
            rcases tag_cases ht' with rfl | rfl | rfl | rfl | rfl | rfl | rfl <;>
              first
              | rfl
              | · exfalso
                  rw [heq] at hs0
                  injection hs0 with e1 e2
                  injection e2 with e3 e4
                  exact absurd e3 (by decide)
          subst ht'eq
          rw [heq, fixAfter_ulbr]
          refine Safe.tag (show str "</ul>" ∈ tagStrings by simp [tagStrings])
            (ih s' ?_ hs')
          rw [heq] at hlen
          simp [str] at hlen
          omega
        · rw [fixAfter_endul hbr]
          exact Safe.tag ht (ih s (by simp [str] at hlen; omega) hs)
      · rw [fixAfter_br]
        exact Safe.tag ht (ih s (by simp [str] at hlen; omega) hs)

theorem fixAfter_safe {cs : List Char} (h : Safe cs) : Safe (fixAfter cs) :=
  fixAfter_safe_aux cs.length cs (Nat.le_refl _) h

/-- Safety of the whole pipeline: every output decomposes into plain
non-angle-bracket characters and whole fixed tags. -/
theorem formatChars_safe (cs : List Char) : Safe (formatChars cs) :=
  fixAfter_safe (fixBefore_safe (nlToBr_safe (wrapUl_safe (listify_safe
    (bold_safe escape_no_angle)))))

/-- Characters that trigger none of the formatter's rewriting steps: no
angle brackets, no asterisk, and no JS line terminator. -/
@[reducible]
def plainChars (cs : List Char) : Prop :=
  ∀ c ∈ cs, c ≠ '<' ∧ c ≠ '>' ∧ c ≠ '*' ∧ isLineTerm c = false

/-- Full pipeline on a two-run list input `"* a\nx\n* b"` (with `a`, `x`, `b`
plain): both item runs and the separating line end up inside one single
`<ul>…</ul>` container. -/
theorem formatChars_two_runs {a x b : List Char}
    (ha : plainChars a) (hx : plainChars x) (hb : plainChars b) :
    formatChars ('*' :: ' ' :: (a ++ '\n' :: (x ++ '\n' :: ('*' :: ' ' :: b))))
      = str "<ul><li>" ++ a ++ (str "</li><br>" ++ (x ++ (str "<br><li>" ++ (b ++ str "</li></ul>")))) := by
  have haS : '*' ∉ a := fun hm => ((ha _ hm).2.2.1) rfl
  have hxS : '*' ∉ x := fun hm => ((hx _ hm).2.2.1) rfl
  have hbS : '*' ∉ b := fun hm => ((hb _ hm).2.2.1) rfl
  have haT : ∀ c ∈ a, isLineTerm c = false := fun c hc => (ha c hc).2.2.2
  have hxT : ∀ c ∈ x, isLineTerm c = false := fun c hc => (hx c hc).2.2.2
  have hbT : ∀ c ∈ b, isLineTerm c = false := fun c hc => (hb c hc).2.2.2
  have haN : '\n' ∉ a := no_nl_of_no_term haT
  have hxN : '\n' ∉ x := no_nl_of_no_term hxT
  have hbN : '\n' ∉ b := no_nl_of_no_term hbT
  have haL : '<' ∉ a := fun hm => ((ha _ hm).1) rfl
  have hxL : '<' ∉ x := fun hm => ((hx _ hm).1) rfl
  have hbL : '<' ∉ b := fun hm => ((hb _ hm).1) rfl
  have hnl : ('\n' : Char) ≠ '*' := by decide
  rw [formatChars]
  -- step 1: escaping is the identity here (no angle brackets anywhere)
  rw [escape_eq_self (by
    intro c hc
    simp only [List.mem_cons, List.mem_append] at hc
    rcases hc with rfl | rfl | hc | rfl | hc | rfl | rfl | rfl | hc
    · exact ⟨by decide, by decide⟩
    · exact ⟨by decide, by decide⟩
    · exact ⟨(ha c hc).1, (ha c hc).2.1⟩
    · exact ⟨by decide, by decide⟩
    · exact ⟨(hx c hc).1, (hx c hc).2.1⟩
    · exact ⟨by decide, by decide⟩
    · exact ⟨by decide, by decide⟩
    · exact ⟨by decide, by decide⟩
    · exact ⟨(hb c hc).1, (hb c hc).2.1⟩)]
  -- step 2: no ** pair anywhere, bolding is the identity
  rw [bold_star_space, bold_append_no_star haS, bold_cons_ne hnl,
    bold_append_no_star hxS, bold_cons_ne hnl, bold_star_space, bold_no_star hbS]
  -- step 3: the two "* " lines become <li> items, the middle line is kept
  rw [show '*' :: ' ' :: (a ++ '\n' :: (x ++ '\n' :: ('*' :: ' ' :: b)))
      = ('*' :: ' ' :: a) ++ '\n' :: (x ++ '\n' :: ('*' :: ' ' :: b)) from rfl]
  rw [listify_step (by
      intro c hc
      rcases List.mem_cons.mp hc with rfl | hc
      · decide
      · rcases List.mem_cons.mp hc with rfl | hc
        · decide
        · exact haT c hc) (by decide),
    listify_step hxT (by decide),
    listify_no_term (by
      intro c hc
      rcases List.mem_cons.mp hc with rfl | hc
      · decide
      · rcases List.mem_cons.mp hc with rfl | hc
        · decide
        · exact hbT c hc),
    liLine_star, liLine_star, liLine_eq_self (take2_ne_star_space hxS)]
  -- step 4: the greedy wrap spans from the first <li> to the last </li>
  rw [wrapUl]
  have hsf : splitFirst (str "<li>")
      ((str "<li>" ++ a ++ str "</li>") ++ '\n' :: (x ++ '\n' :: (str "<li>" ++ b ++ str "</li>")))
      = some ([], a ++ str "</li>" ++ '\n' :: (x ++ '\n' :: (str "<li>" ++ b)) ++ str "</li>") := by
    rw [show (str "<li>" ++ a ++ str "</li>") ++ '\n' :: (x ++ '\n' :: (str "<li>" ++ b ++ str "</li>"))
        = ('<' :: str "li>") ++ (a ++ str "</li>" ++ '\n' :: (x ++ '\n' :: (str "<li>" ++ b)) ++ str "</li>") from by
      simp [str]]
    exact splitFirst_self _
  rw [hsf]
  dsimp only
  have hsl : splitLast (str "</li>")
      (a ++ str "</li>" ++ '\n' :: (x ++ '\n' :: (str "<li>" ++ b)) ++ str "</li>")
      = some (a ++ str "</li>" ++ '\n' :: (x ++ '\n' :: (str "<li>" ++ b)), []) := by
    simpa using splitLast_append_some
      (u := a ++ str "</li>" ++ '\n' :: (x ++ '\n' :: (str "<li>" ++ b))) splitLast_endli
  rw [hsl]
  dsimp only
  simp only [List.append_nil, List.nil_append]
  -- step 5: the two newlines become <br>
  rw [show str "<ul><li>" ++ (a ++ str "</li>" ++ '\n' :: (x ++ '\n' :: (str "<li>" ++ b))) ++ str "</li></ul>"
      = (str "<ul><li>" ++ a ++ str "</li>") ++ '\n' :: (x ++ '\n' :: (str "<li>" ++ b ++ str "</li></ul>")) from by
    simp [str]]
  simp only [nlToBr_append, nlToBr_nl, nlToBr_eq_self haN, nlToBr_eq_self hxN,
    nlToBr_eq_self hbN,
    show nlToBr (str "<ul><li>") = str "<ul><li>" from by decide,
    show nlToBr (str "</li>") = str "</li>" from by decide,
    show nlToBr (str "<li>") = str "<li>" from by decide,
    show nlToBr (str "</li></ul>") = str "</li></ul>" from by decide]
  -- step 6: neither cleanup pattern occurs
  rw [show (str "<ul><li>" : List Char) = str "<ul>" ++ str "<li>" from by decide,
    show (str "</li></ul>" : List Char) = str "</li>" ++ str "</ul>" from by decide]
  simp only [List.append_assoc]
  have hbr1 : ¬ (str "<ul>").isPrefixOf
      (x ++ (str "<br>" ++ (str "<li>" ++ (b ++ (str "</li>" ++ str "</ul>"))))) = true :=
    isPrefixOf_append_plain (fun c hc => (hx c hc).1) (by simp [str, prefixOf_cons])
  have hbr2 : ¬ (str "<ul>").isPrefixOf
      (str "<li>" ++ (b ++ (str "</li>" ++ str "</ul>"))) = true := by
    simp [str, prefixOf_cons]
  rw [fixBefore_ul, fixBefore_li, fixBefore_append_no_lt haL, fixBefore_endli,
    fixBefore_br hbr1, fixBefore_append_no_lt hxL, fixBefore_br hbr2,
    fixBefore_li, fixBefore_append_no_lt hbL, fixBefore_endli, fixBefore_endul_last]
  rw [fixAfter_ul, fixAfter_li, fixAfter_append_no_lt haL, fixAfter_endli,
    fixAfter_br, fixAfter_append_no_lt hxL, fixAfter_br,
    fixAfter_li, fixAfter_append_no_lt hbL, fixAfter_endli, fixAfter_endul_last]
  simp [str]

/-- C1 (amended): the formatter emits one single list container per input —
the greedy wrap step spans from the first list item to the last one — so a
lone maximal run is wrapped in exactly one container, but two maximal runs
separated by a non-list line share a single container which also encloses
the separating text. -/
theorem c1_singleContainer (a x b : String)
    (ha : plainChars a.data) (hx : plainChars x.data) (hb : plainChars b.data) :
    formatGeminiResponse ("* " ++ a ++ "\n" ++ x ++ "\n* " ++ b)
      = "<ul><li>" ++ a ++ "</li><br>" ++ x ++ "<br><li>" ++ b ++ "</li></ul>" := by
  have key := formatChars_two_runs ha hx hb
  rw [formatGeminiResponse]
  have hdata : ("* " ++ a ++ "\n" ++ x ++ "\n* " ++ b).data
      = '*' :: ' ' :: (a.data ++ '\n' :: (x.data ++ '\n' :: ('*' :: ' ' :: b.data))) := by
    simp [String.data_append]
  rw [hdata, key]
  have hrhs : ("<ul><li>" ++ a ++ "</li><br>" ++ x ++ "<br><li>" ++ b ++ "</li></ul>").data
      = str "<ul><li>" ++ a.data ++ (str "</li><br>" ++ (x.data ++ (str "<br><li>"
        ++ (b.data ++ str "</li></ul>")))) := by
    simp [String.data_append, str]
  rw [← hrhs, asString_data]

/-- Witness for `c1_singleContainer` at `a = "a"`, `x = "x"`, `b = "b"`. -/
theorem c1_singleContainer_witness :
    plainChars ("a" : String).data ∧ plainChars ("x" : String).data ∧
    plainChars ("b" : String).data ∧
    formatGeminiResponse "* a\nx\n* b" = "<ul><li>a</li><br>x<br><li>b</li></ul>" := by
  refine ⟨by decide, by decide, by decide, ?_⟩
  have h := c1_singleContainer "a" "x" "b" (by decide) (by decide) (by decide)
  rw [show ("* " ++ "a" ++ "\n" ++ "x" ++ "\n* " ++ "b" : String) = "* a\nx\n* b"
    from by decide] at h
  rw [h]
  decide

/-! ## Claims about the submit handler -/

/-- C4 counterexample: the claim says a JSON body containing an `error`
field has that field's text shown; but for `error = ""` the handler's
`errorData?.error || …` treats the field as falsy and shows the generic
status message instead, not the (empty) field text within the wrapping. -/
theorem c4_counterexample :
    handleSubmit "hi" (.response ⟨500, .parsed (.jobj (some "") none)⟩)
      = .submitted
        { userEntry := .html "hi", placeholder := .html thinkingMsg, request := chatRequestFor "hi",
          finalBot := .text (failPre ++ statusMsg 500) } ∧
    BotUpdate.text (failPre ++ statusMsg 500) ≠ .text (failPre ++ "") := by
  constructor
  · decide
  · decide

/-- C4 (amended): a non-ok response terminates the submission in Done with
the placeholder replaced by the error text wrapped in the fixed prefix; a
parsed body with a non-empty `error` field supplies that text, while a
missing, empty, null-body or unparseable `error` yields the generic message
embedding the numeric status. -/
theorem c4_errorMessage (v : String) (r : HttpResponse)
    (hv : jsTrim v ≠ "") (hok : r.ok = false) :
    ∃ s, handleSubmit v (.response r) = .submitted s ∧
      s.finalBot = .text (failPre ++ errorText r) ∧
      (∀ e res, r.body = .parsed (.jobj (some e) res) → e ≠ "" → errorText r = e) ∧
      (∀ res, r.body = .parsed (.jobj (some "") res) → errorText r = statusMsg r.status) ∧
      (∀ res, r.body = .parsed (.jobj none res) → errorText r = statusMsg r.status) ∧
      (r.body = .parsed .jnull → errorText r = statusMsg r.status) ∧
      (∀ m, r.body = .unparseable m → errorText r = statusMsg r.status) := by
  refine ⟨{ userEntry := .html (jsTrim v), placeholder := .html thinkingMsg,
            request := chatRequestFor (jsTrim v), finalBot := finalUpdate (.response r) },
    by simp [handleSubmit, hv], ?_, ?_, ?_, ?_, ?_, ?_⟩
  · simp [finalUpdate, hok]
  · intro e res hb hne
    simp [errorText, hb, orFalsy, hne]
  · intro res hb
    simp [errorText, hb, orFalsy]
  · intro res hb
    simp [errorText, hb, orFalsy]
  · intro hb
    simp [errorText, hb]
  · intro m hb
    simp [errorText, hb]

/-- Witness for `c4_errorMessage`: HTTP 500 with body error "overloaded"
yields a final bot message that is the fixed wrapping of "overloaded". -/
theorem c4_errorMessage_witness :
    jsTrim "hi" ≠ "" ∧
    (⟨500, .parsed (.jobj (some "overloaded") none)⟩ : HttpResponse).ok = false ∧
    ∃ s, handleSubmit "hi" (.response ⟨500, .parsed (.jobj (some "overloaded") none)⟩)
        = .submitted s ∧
      s.finalBot = .text (failPre ++ "overloaded") := by
  refine ⟨by decide, by decide, ?_⟩
  obtain ⟨s, h1, h2, h3, -⟩ :=
    c4_errorMessage "hi" ⟨500, .parsed (.jobj (some "overloaded") none)⟩ (by decide) (by decide)
  exact ⟨s, h1, by rw [h2, h3 "overloaded" none rfl (by decide)]⟩

/-- C5: an ok response whose `result` field is missing, empty, or whose body
is `null` replaces the placeholder with the fixed no-response text via
`textContent`; the formatter is not applied (the update is not `html`). -/
theorem c5_noResult (v : String) (r : HttpResponse)
    (hv : jsTrim v ≠ "") (hok : r.ok = true)
    (hres : r.body = .parsed .jnull ∨ (∃ e, r.body = .parsed (.jobj e none)) ∨
      (∃ e, r.body = .parsed (.jobj e (some "")))) :
    ∃ s, handleSubmit v (.response r) = .submitted s ∧
      s.finalBot = .text noResponseMsg ∧ ∀ t, s.finalBot ≠ .html t := by
  refine ⟨{ userEntry := .html (jsTrim v), placeholder := .html thinkingMsg,
            request := chatRequestFor (jsTrim v), finalBot := finalUpdate (.response r) },
    by simp [handleSubmit, hv], ?_, ?_⟩
  · rcases hres with hb | ⟨e, hb⟩ | ⟨e, hb⟩ <;> simp [finalUpdate, hok, hb]
  · intro t
    rcases hres with hb | ⟨e, hb⟩ | ⟨e, hb⟩ <;> simp [finalUpdate, hok, hb]

/-- Witness for `c5_noResult`: a 200 response with body lacking `result`. -/
theorem c5_noResult_witness :
    jsTrim "hi" ≠ "" ∧ (⟨200, .parsed (.jobj none none)⟩ : HttpResponse).ok = true ∧
    ∃ s, handleSubmit "hi" (.response ⟨200, .parsed (.jobj none none)⟩) = .submitted s ∧
      s.finalBot = .text noResponseMsg := by
  refine ⟨by decide, by decide, ?_⟩
  obtain ⟨s, h1, h2, -⟩ :=
    c5_noResult "hi" ⟨200, .parsed (.jobj none none)⟩ (by decide) (by decide)
      (Or.inr (Or.inl ⟨none, rfl⟩))
  exact ⟨s, h1, h2⟩

/-- C6: a whitespace-only (or empty) input value makes the listener return
before any effect: no transcript entries, no request, input untouched. -/
theorem c6_whitespaceIdle (v : String) (o : Outcome) (hv : jsTrim v = "") :
    handleSubmit v o = .idle := by
  simp [handleSubmit, hv]

/-- Witness for `c6_whitespaceIdle` on the whitespace-only input `"   "`. -/
theorem c6_whitespaceIdle_witness :
    jsTrim "   " = "" ∧ handleSubmit "   " (.networkFailure "x") = .idle :=
  ⟨by decide, c6_whitespaceIdle "   " (.networkFailure "x") (by decide)⟩

/-- C9: a submission whose trimmed input is non-empty issues exactly one
request — `POST /api/chat`, content type `application/json`, body a
single-element `message` array with role `user` and the trimmed input as
content. -/
theorem c9_request (v : String) (o : Outcome) (hv : jsTrim v ≠ "") :
    ∃ s, handleSubmit v o = .submitted s ∧
      s.request = { url := "/api/chat", method := "POST",
                    contentType := "application/json",
                    message := [{ role := "user", content := jsTrim v }] } := by
  exact ⟨{ userEntry := .html (jsTrim v), placeholder := .html thinkingMsg,
           request := chatRequestFor (jsTrim v), finalBot := finalUpdate o },
    by simp [handleSubmit, hv], rfl⟩

/-- Witness for `c9_request`: `" hi "` is trimmed to `"hi"` in the body. -/
theorem c9_request_witness :
    jsTrim " hi " ≠ "" ∧
    ∃ s, handleSubmit " hi " (.networkFailure "x") = .submitted s ∧
      s.request = { url := "/api/chat", method := "POST",
                    contentType := "application/json",
                    message := [{ role := "user", content := jsTrim " hi " }] } :=
  ⟨by decide, c9_request " hi " (.networkFailure "x") (by decide)⟩

/-- C10 counterexample: the claim allows `innerHTML` injection in exactly
two cases, the user's trimmed input and the formatter's output on success;
but `appendMessage` (line 48) assigns `innerHTML` on every append, so the
placeholder `'Gemini sedang berpikir...'` (line 67) is a third `innerHTML`
injection.  On a submission whose only bot update is a `textContent`
failure text, the placeholder is still injected as HTML, and its content
is neither the user's trimmed input nor any formatter output of this
submission. -/
theorem c10_counterexample :
    handleSubmit "hi" (.networkFailure "x") = .submitted
      { userEntry := .html "hi", placeholder := .html thinkingMsg,
        request := chatRequestFor "hi", finalBot := .text (failPre ++ "x") } ∧
    BotUpdate.html thinkingMsg ≠ BotUpdate.html "hi" ∧
    thinkingMsg ≠ jsTrim "hi" := by
  refine ⟨by decide, by decide, by decide⟩

/-- C10 (amended): content is injected via `innerHTML` in exactly three
cases — `appendMessage` uses `innerHTML` for every append, covering the
user's own trimmed input (line 63) and the fixed placeholder text
`'Gemini sedang berpikir...'` (line 67) — and the formatter's output for a
successful non-empty `result` (line 93); every failure text (network
failure, non-ok response, missing result) is assigned with `textContent`
(the `text` constructor), never parsed as markup. -/
theorem c10_injection (v : String) (o : Outcome) (s : Submitted)
    (h : handleSubmit v o = .submitted s) :
    s.userEntry = .html (jsTrim v) ∧
    s.placeholder = .html thinkingMsg ∧
    (∀ t, s.finalBot = .html t →
      ∃ r e res, o = .response r ∧ r.ok = true ∧
        r.body = .parsed (.jobj e (some res)) ∧ res ≠ "" ∧
        t = formatGeminiResponse res) ∧
    (∀ m, o = .networkFailure m → s.finalBot = .text (failPre ++ m)) ∧
    (∀ r, o = .response r → r.ok = false → s.finalBot = .text (failPre ++ errorText r)) := by
  by_cases hv : jsTrim v = ""
  · simp [handleSubmit, hv] at h
  · simp only [handleSubmit, if_neg hv] at h
    obtain rfl : ({ userEntry := .html (jsTrim v), placeholder := .html thinkingMsg,
                    request := chatRequestFor (jsTrim v),
                    finalBot := finalUpdate o } : Submitted) = s :=
      by injection h
    refine ⟨rfl, rfl, ?_, ?_, ?_⟩
    · intro t ht
      simp only at ht
      cases o with
      | networkFailure m => simp [finalUpdate] at ht
      | response r =>
        by_cases hok : r.ok
        · cases hb : r.body with
          | unparseable m => simp [finalUpdate, hok, hb] at ht
          | parsed d =>
            cases d with
            | jnull => simp [finalUpdate, hok, hb] at ht
            | jobj e res =>
              cases res with
              | none => simp [finalUpdate, hok, hb] at ht
              | some t0 =>
                by_cases ht0 : t0 = ""
                · simp [finalUpdate, hok, hb, ht0] at ht
                · refine ⟨r, e, t0, rfl, hok, hb, ht0, ?_⟩
                  simp [finalUpdate, hok, hb, ht0] at ht
                  exact ht.symm
        · simp [finalUpdate, hok] at ht
    · intro m hm
      subst hm
      simp [finalUpdate]
    · intro r hr hok
      subst hr
      simp [finalUpdate, hok]

/-! ## Concrete formatter claims -/

/-- C8: on already-escaped plain text with no markdown markers (no angle
brackets, no `**` occurrence, no leading `"* "`, and no newline — that is,
no JS line terminator, so the only line is the whole string) the formatter
is the identity, hence idempotent; and the empty string formats to the
empty string. -/
theorem c8_plainIdentity (s : String)
    (h1 : ∀ c ∈ s.data, c ≠ '<' ∧ c ≠ '>' ∧ isLineTerm c = false)
    (h2 : countSub (str "**") s.data = 0)
    (h3 : s.data.take 2 ≠ str "* ") :
    formatGeminiResponse s = s ∧
    formatGeminiResponse (formatGeminiResponse s) = s ∧
    formatGeminiResponse "" = "" := by
  have hT : ∀ c ∈ s.data, isLineTerm c = false := fun c hc => (h1 c hc).2.2
  have hn : '\n' ∉ s.data := no_nl_of_no_term hT
  have hlt : '<' ∉ s.data := fun hm => ((h1 _ hm).1) rfl
  have hid : formatChars s.data = s.data := by
    rw [formatChars, escape_eq_self (fun c hc => ⟨(h1 c hc).1, (h1 c hc).2.1⟩),
      bold_eq_self h2, listify_eq_self hT h3, wrapUl_eq_self hlt,
      nlToBr_eq_self hn, fixBefore_eq_self hlt, fixAfter_eq_self hlt]
  have hfmt : formatGeminiResponse s = s := by
    rw [formatGeminiResponse, hid, asString_data]
  have h0 : formatChars ([] : List Char) = [] := by
    rw [formatChars, escape_eq_self (by simp), bold_eq_self (by rw [countSub]),
      listify_eq_self (by simp) (by decide), wrapUl_eq_self (by simp),
      nlToBr_eq_self (by simp), fixBefore_eq_self (by simp),
      fixAfter_eq_self (by simp)]
  exact ⟨hfmt, by rw [hfmt, hfmt], by rw [formatGeminiResponse]; rw [show ("" : String).data = [] from rfl, h0]; rfl⟩

/-- Witness for `c8_plainIdentity` on the plain string "hello, world.". -/
theorem c8_plainIdentity_witness :
    (∀ c ∈ ("hello, world." : String).data, c ≠ '<' ∧ c ≠ '>' ∧ isLineTerm c = false) ∧
    countSub (str "**") ("hello, world." : String).data = 0 ∧
    ("hello, world." : String).data.take 2 ≠ str "* " ∧
    formatGeminiResponse "hello, world." = "hello, world." :=
  ⟨by decide, by decide, by decide,
    (c8_plainIdentity "hello, world." (by decide) (by decide) (by decide)).1⟩

/-- C2: escaping is applied first, so no raw `<` or `>` survives it (each
is turned into its entity by `escChar`, while any other character — quotes
and ampersands included — passes through unchanged); afterwards the output
stays `Safe`: it decomposes into non-angle-bracket characters and whole
tags from the formatter's fixed tag set, so every `<`/`>` in the final
output belongs to one of `<strong>`, `</strong>`, `<li>`, `</li>`, `<ul>`,
`</ul>`, `<br>`. -/
theorem c2_safeOutput (s : String) :
    Safe (formatGeminiResponse s).data ∧
    (∀ c ∈ escape s.data, c ≠ '<' ∧ c ≠ '>') ∧
    (∀ c : Char, c ≠ '<' → c ≠ '>' → escChar c = [c]) ∧
    escChar '<' = str "&lt;" ∧ escChar '>' = str "&gt;" := by
  refine ⟨?_, escape_no_angle, ?_, rfl, rfl⟩
  · rw [formatGeminiResponse]
    exact formatChars_safe s.data
  · intro c h1 h2
    simp [escChar, h1, h2]

set_option maxRecDepth 8192 in
/-- C3: `"* a\n* b"` formats to a single `<ul>…</ul>` container spanning the
whole output, holding exactly the two items `<li>a</li>` and `<li>b</li>`,
with no `<br>` immediately before the container or after its close (the
output does retain a `<br>` between the two items, inside the container). -/
theorem c3_twoItemList :
    formatGeminiResponse "* a\n* b" = "<ul><li>a</li><br><li>b</li></ul>" ∧
    countSub (str "<ul>") (str "<ul><li>a</li><br><li>b</li></ul>") = 1 ∧
    countSub (str "</ul>") (str "<ul><li>a</li><br><li>b</li></ul>") = 1 ∧
    countSub (str "<li>") (str "<ul><li>a</li><br><li>b</li></ul>") = 2 ∧
    countSub (str "<li>a</li>") (str "<ul><li>a</li><br><li>b</li></ul>") = 1 ∧
    countSub (str "<li>b</li>") (str "<ul><li>a</li><br><li>b</li></ul>") = 1 ∧
    countSub (str "<br><ul>") (str "<ul><li>a</li><br><li>b</li></ul>") = 0 ∧
    countSub (str "</ul><br>") (str "<ul><li>a</li><br><li>b</li></ul>") = 0 ∧
    (str "<ul>").isPrefixOf (str "<ul><li>a</li><br><li>b</li></ul>") = true ∧
    (str "</ul>").isSuffixOf (str "<ul><li>a</li><br><li>b</li></ul>") = true := by
  refine ⟨?_, by decide, by decide, by decide, by decide, by decide, by decide,
    by decide, by decide, by decide⟩
  simp [formatGeminiResponse, formatChars, escape, bold, listify, wrapUl, nlToBr,
    fixBefore, fixAfter, splitNl, liLine, splitFirst, splitLast, findClose, str,
    escChar, brChar, isLineTerm, List.isPrefixOf]
  decide

set_option maxRecDepth 8192 in
/-- C7: `**text**` becomes `<strong>text</strong>` with non-greedy,
first-match pairing — `"**bold**"` is fully bolded with no asterisk left,
`"**a**b**"` pairs the first two markers only (the trailing unmatched `**`
stays literal, where a greedy match would have bolded `a**b`), and an
unclosed `"**bold"` is left entirely literal. -/
theorem c7_boldPairs :
    formatGeminiResponse "**bold**" = "<strong>bold</strong>" ∧
    countSub (str "*") (str "<strong>bold</strong>") = 0 ∧
    formatGeminiResponse "**a**b**" = "<strong>a</strong>b**" ∧
    formatGeminiResponse "**bold" = "**bold" := by
  refine ⟨?_, by decide, ?_, ?_⟩ <;>
    · simp [formatGeminiResponse, formatChars, escape, bold, listify, wrapUl, nlToBr,
        fixBefore, fixAfter, splitNl, liLine, splitFirst, splitLast, findClose, str,
        escChar, brChar, isLineTerm, List.isPrefixOf]
      decide

set_option maxRecDepth 8192 in
/-- C1 counterexample: on `"* a\nx\n* b"` there are two maximal runs of list
items separated by the non-list line `x`, yet the output contains exactly one
`<ul>`/`</ul>` pair — a single container enclosing both runs and the
intervening text — not two distinct containers as the claim requires. -/
theorem c1_counterexample :
    formatGeminiResponse "* a\nx\n* b" = "<ul><li>a</li><br>x<br><li>b</li></ul>" ∧
    countSub (str "<ul>") (str "<ul><li>a</li><br>x<br><li>b</li></ul>") = 1 ∧
    countSub (str "</ul>") (str "<ul><li>a</li><br>x<br><li>b</li></ul>") = 1 ∧
    countSub (str "<li>") (str "<ul><li>a</li><br>x<br><li>b</li></ul>") = 2 := by
  refine ⟨?_, by decide, by decide, by decide⟩
  simp [formatGeminiResponse, formatChars, escape, bold, listify, wrapUl, nlToBr,
    fixBefore, fixAfter, splitNl, liLine, splitFirst, splitLast, findClose, str,
    escChar, brChar, isLineTerm, List.isPrefixOf]
  decide

/-- Witness for `c10_injection` on a concrete failing submission. -/
theorem c10_injection_witness :
    handleSubmit "hi" (.networkFailure "x") = .submitted
      { userEntry := .html "hi", placeholder := .html thinkingMsg, request := chatRequestFor "hi",
        finalBot := .text (failPre ++ "x") } ∧
    ({ userEntry := .html "hi", placeholder := .html thinkingMsg, request := chatRequestFor "hi",
        finalBot := .text (failPre ++ "x") } : Submitted).userEntry = .html (jsTrim "hi") ∧
    ({ userEntry := .html "hi", placeholder := .html thinkingMsg, request := chatRequestFor "hi",
        finalBot := .text (failPre ++ "x") } : Submitted).placeholder = .html thinkingMsg := by
  have h : handleSubmit "hi" (.networkFailure "x") = .submitted
      { userEntry := .html "hi", placeholder := .html thinkingMsg, request := chatRequestFor "hi",
        finalBot := .text (failPre ++ "x") } := by decide
  exact ⟨h, (c10_injection "hi" (.networkFailure "x") _ h).1,
    (c10_injection "hi" (.networkFailure "x") _ h).2.1⟩

end ChatWidget
